import Mathlib

/-!
Verification of the structural-correlation-graph pipeline
(`helper_functions.py`: `loadSCGData`, `getMST`, `getBettiCurve`).

All numeric values are modelled as exact rationals (`ℚ`).  The
floating-point square root used inside `np.corrcoef` is modelled by
`Rat.sqrt`; no theorem in this file depends on the value of the square
root at a non-perfect square (the correlation values themselves only
matter through shapes and through entries that are overwritten by the
diagonal sentinel in the cases analysed here).
-/

namespace SCG

/-- An MST edge as produced by `getMST`: `(source, target, weight)`. -/
abbrev Edge := ℕ × ℕ × ℚ

/-! ## Betti-curve computer (`getBettiCurve`, lines 113-141) -/

/-- `np.linspace a b n` (with endpoint): the list `a + i * ((b - a)/(n-1))`
for `i = 0, …, n-1`, in exact rational arithmetic. -/
def linspace (a b : ℚ) (n : ℕ) : List ℚ :=
  (List.range n).map (fun i : ℕ => a + (i : ℚ) * ((b - a) / ((n : ℚ) - 1)))

/-- The threshold grid of `getBettiCurve`:
`thresholds = np.linspace(1.0/10000, 1.0, 10000)` (line 134). -/
def thresholds : List ℚ := linspace (1/10000) 1 10000

/-- One curve sample: `1 + sum([1 for w in ws if w <= t])` (lines 138-139). -/
def bettiAt (ws : List ℚ) (t : ℚ) : ℕ := 1 + ws.countP (fun w => w ≤ t)

/-- `getBettiCurve(mst_asd, mst_tdc)` (lines 131-141): extract the third
component of every edge, then sample `bettiAt` on the shared threshold
grid; returns `(beta_asd, beta_tdc, thresholds)`. -/
def getBettiCurve (mst_asd mst_tdc : List Edge) :
    List ℕ × List ℕ × List ℚ :=
  let w_asd := mst_asd.map (fun e => e.2.2)
  let w_tdc := mst_tdc.map (fun e => e.2.2)
  (thresholds.map (bettiAt w_asd), thresholds.map (bettiAt w_tdc), thresholds)

/-- Unfolding equation for `getBettiCurve` (stated once so later proofs can
rewrite with it instead of forcing definitional unfolding of the grid). -/
theorem getBettiCurve_def (a b : List Edge) :
    getBettiCurve a b
      = (thresholds.map (bettiAt (a.map (fun e => e.2.2))),
         thresholds.map (bettiAt (b.map (fun e => e.2.2))),
         thresholds) := rfl

/-- The grid is exactly `(k+1)/10000` for `k = 0, …, 9999`. -/
theorem thresholds_eq :
    thresholds
      = (List.range 10000).map (fun k : ℕ => ((k : ℚ) + 1) / 10000) := by
  unfold thresholds linspace
  refine List.map_congr_left (fun i _ => ?_)
  norm_num
  ring

theorem thresholds_length : thresholds.length = 10000 := by
  rw [thresholds_eq, List.length_map, List.length_range]

theorem thresholds_getD (k : ℕ) (hk : k < 10000) :
    thresholds.getD k 0 = ((k : ℚ) + 1) / 10000 := by
  rw [thresholds_eq, List.getD_eq_getElem?_getD, List.getElem?_map,
    List.getElem?_range hk]
  rfl

theorem bettiAt_mono (ws : List ℚ) {t t' : ℚ} (h : t ≤ t') :
    bettiAt ws t ≤ bettiAt ws t' := by
  unfold bettiAt
  have hc : ws.countP (fun w => w ≤ t) ≤ ws.countP (fun w => w ≤ t') := by
    refine List.countP_mono_left (fun w _ hw => ?_)
    simp only [decide_eq_true_eq] at hw ⊢
    exact le_trans hw h
  omega

theorem getBettiCurve_fst_length (a b : List Edge) :
    (getBettiCurve a b).1.length = 10000 := by
  rw [getBettiCurve_def]
  simp [thresholds_length]

theorem map_thresholds_getD (f : ℚ → ℕ) (k : ℕ) (hk : k < 10000) :
    (thresholds.map f).getD k 0 = f (((k : ℚ) + 1) / 10000) := by
  rw [thresholds_eq, List.map_map, List.getD_eq_getElem?_getD,
    List.getElem?_map, List.getElem?_range hk]
  rfl

theorem getBettiCurve_fst_getD (a b : List Edge) (k : ℕ) (hk : k < 10000) :
    (getBettiCurve a b).1.getD k 0
      = bettiAt (a.map (fun e => e.2.2)) (((k : ℚ) + 1) / 10000) := by
  rw [getBettiCurve_def]
  dsimp only
  exact map_thresholds_getD _ k hk

theorem getBettiCurve_snd_getD (a b : List Edge) (k : ℕ) (hk : k < 10000) :
    (getBettiCurve a b).2.1.getD k 0
      = bettiAt (b.map (fun e => e.2.2)) (((k : ℚ) + 1) / 10000) := by
  rw [getBettiCurve_def]
  dsimp only
  exact map_thresholds_getD _ k hk

theorem bettiAt_singleton (w t : ℚ) :
    bettiAt [w] t = if w ≤ t then 2 else 1 := by
  unfold bettiAt
  rw [List.countP_cons, List.countP_nil]
  by_cases h : w ≤ t <;> simp [h]

theorem grid_point_mono {i j : ℕ} (hij : i ≤ j) :
    ((i : ℚ) + 1) / 10000 ≤ ((j : ℚ) + 1) / 10000 := by
  have hc : (i : ℚ) ≤ (j : ℚ) := by exact_mod_cast hij
  linarith

theorem bettiAt_eq_one (ws : List ℚ) (t : ℚ) (h : ∀ w ∈ ws, t < w) :
    bettiAt ws t = 1 := by
  unfold bettiAt
  rw [List.countP_eq_zero.2]
  intro w hw
  simp only [decide_eq_true_eq]
  exact not_le.2 (h w hw)

theorem bettiAt_eq_full (ws : List ℚ) (t : ℚ) (h : ∀ w ∈ ws, w ≤ t) :
    bettiAt ws t = 1 + ws.length := by
  unfold bettiAt
  rw [List.countP_eq_length.2]
  intro w hw
  simp only [decide_eq_true_eq]
  exact h w hw

/-! ## Claim C1 -/

/-- C1 counterexample: with single-edge MST lists of weight `1/2`, the first
returned curve takes value `1` at grid index `0` and value `2` at grid
index `9999`, so it is not non-increasing in the threshold index. -/
theorem betti_curve_not_nonincreasing :
    ¬ (∀ i j : ℕ, i ≤ j → j < 10000 →
        (getBettiCurve [(0, 1, 1/2)] [(0, 1, 1/2)]).1.getD j 0
          ≤ (getBettiCurve [(0, 1, 1/2)] [(0, 1, 1/2)]).1.getD i 0) := by
  intro h
  have h09 := h 0 9999 (by norm_num) (by norm_num)
  rw [getBettiCurve_fst_getD _ _ 0 (by norm_num),
    getBettiCurve_fst_getD _ _ 9999 (by norm_num)] at h09
  simp only [List.map_cons, List.map_nil, bettiAt_singleton] at h09
  norm_num at h09

/-- C1 (amended): each component-count curve returned by `getBettiCurve`
is non-DEcreasing as the threshold increases: for grid indices `i ≤ j`
(in range), `curve[i] ≤ curve[j]`, for both cohorts. -/
theorem betti_curve_nondecreasing (a b : List Edge) (i j : ℕ)
    (hij : i ≤ j) (hj : j < 10000) :
    (getBettiCurve a b).1.getD i 0 ≤ (getBettiCurve a b).1.getD j 0 ∧
    (getBettiCurve a b).2.1.getD i 0 ≤ (getBettiCurve a b).2.1.getD j 0 := by
  have hi : i < 10000 := lt_of_le_of_lt hij hj
  rw [getBettiCurve_fst_getD a b i hi, getBettiCurve_fst_getD a b j hj,
    getBettiCurve_snd_getD a b i hi, getBettiCurve_snd_getD a b j hj]
  exact ⟨bettiAt_mono _ (grid_point_mono hij), bettiAt_mono _ (grid_point_mono hij)⟩

/-- C1 witness: the amended theorem applied at a concrete input. -/
theorem betti_curve_nondecreasing_witness :
    (2 ≤ 5 ∧ 5 < 10000) ∧
    ((getBettiCurve [(0, 1, 1/3)] []).1.getD 2 0
        ≤ (getBettiCurve [(0, 1, 1/3)] []).1.getD 5 0 ∧
     (getBettiCurve [(0, 1, 1/3)] []).2.1.getD 2 0
        ≤ (getBettiCurve [(0, 1, 1/3)] []).2.1.getD 5 0) :=
  ⟨by norm_num, betti_curve_nondecreasing [(0, 1, 1/3)] [] 2 5 (by norm_num) (by norm_num)⟩

/-! ## Claim C2 -/

/-- C2 counterexample: for the valid 2-region MST edge list `[(0, 1, 1/2)]`
(one edge, weight in `[0,1]`, no merge at or below the smallest grid point),
the curve does NOT start at `R = 2` and end at `1`: it starts at `1` and
ends at `2`. -/
theorem betti_endpoints_claim_false :
    ¬ ((getBettiCurve [(0, 1, 1/2)] []).1.getD 0 0 = 2 ∧
       (getBettiCurve [(0, 1, 1/2)] []).1.getD 9999 0 = 1) := by
  rw [getBettiCurve_fst_getD _ _ 0 (by norm_num),
    getBettiCurve_fst_getD _ _ 9999 (by norm_num)]
  simp only [List.map_cons, List.map_nil, bettiAt_singleton]
  norm_num

/-- C2 (amended): for every MST edge list from a valid `R`-region graph
(`R ≥ 2`, exactly `R−1` edges, weights in `[0,1]`, no merge at or below the
smallest grid point), the curve's first value equals `1` and its last value
(at threshold `t = 1`) equals `R`. -/
theorem betti_endpoints (R : ℕ) (mst other : List Edge) (hR : 2 ≤ R)
    (hlen : mst.length = R - 1)
    (hw : ∀ e ∈ mst, 0 ≤ e.2.2 ∧ e.2.2 ≤ 1)
    (hfirst : ∀ e ∈ mst, 1/10000 < e.2.2) :
    (getBettiCurve mst other).1.getD 0 0 = 1 ∧
    (getBettiCurve mst other).1.getD 9999 0 = R := by
  constructor
  · rw [getBettiCurve_fst_getD _ _ 0 (by norm_num), bettiAt_eq_one]
    intro w hwmem
    rcases List.mem_map.1 hwmem with ⟨e, he, rfl⟩
    have h1 := hfirst e he
    push_cast
    linarith
  · rw [getBettiCurve_fst_getD _ _ 9999 (by norm_num), bettiAt_eq_full,
      List.length_map, hlen]
    · omega
    · intro w hwmem
      rcases List.mem_map.1 hwmem with ⟨e, he, rfl⟩
      have h2 := (hw e he).2
      push_cast
      linarith

/-- C2 witness: the amended theorem applied at `R = 2`, one edge of
weight `2/3`. -/
theorem betti_endpoints_witness :
    (2 ≤ 2 ∧ ([((0 : ℕ), (1 : ℕ), (2 : ℚ)/3)] : List Edge).length = 2 - 1 ∧
     (∀ e ∈ ([(0, 1, 2/3)] : List Edge), 0 ≤ e.2.2 ∧ e.2.2 ≤ 1) ∧
     (∀ e ∈ ([(0, 1, 2/3)] : List Edge), 1/10000 < e.2.2)) ∧
    ((getBettiCurve [(0, 1, 2/3)] []).1.getD 0 0 = 1 ∧
     (getBettiCurve [(0, 1, 2/3)] []).1.getD 9999 0 = 2) :=
  ⟨⟨le_refl 2, rfl, by intro e he; simp at he; rw [he]; norm_num,
     by intro e he; simp at he; rw [he]; norm_num⟩,
   betti_endpoints 2 [(0, 1, 2/3)] [] (le_refl 2) rfl
     (by intro e he; simp at he; rw [he]; norm_num)
     (by intro e he; simp at he; rw [he]; norm_num)⟩

/-! ## Claim C6 -/

/-- C6 counterexample: for a 2-region MST with a single edge of dissimilarity
`d = 1/4` (stored weight `1 − d = 3/4`), the curve does not step from `2`
down to `1`: it is `1` at the first grid point (below `d`) and `2` at the
last grid point. -/
theorem betti_step_claim_false :
    ¬ ((getBettiCurve [(0, 1, 3/4)] [(0, 1, 3/4)]).1.getD 0 0 = 2 ∧
       (getBettiCurve [(0, 1, 3/4)] [(0, 1, 3/4)]).1.getD 9999 0 = 1) := by
  rw [getBettiCurve_fst_getD _ _ 0 (by norm_num),
    getBettiCurve_fst_getD _ _ 9999 (by norm_num)]
  simp only [List.map_cons, List.map_nil, bettiAt_singleton]
  norm_num

/-- C6 (amended): for a single-edge MST whose stored weight is
`w = 1 − d` with `1/10000 < w ≤ 1`, the curve is a step function taking
value `1` strictly below `w` and `2` from the first grid point `≥ w` on;
in particular it transitions exactly once, from `1` up to `2`, at the
stored similarity weight `w` (not at the dissimilarity `d`). -/
theorem betti_step_shape (i j : ℕ) (w : ℚ) (other : List Edge)
    (h1 : 1/10000 < w) (h2 : w ≤ 1) :
    (∀ k : ℕ, k < 10000 →
        (getBettiCurve [(i, j, w)] other).1.getD k 0
          = if ((k : ℚ) + 1) / 10000 < w then 1 else 2) ∧
    (getBettiCurve [(i, j, w)] other).1.getD 0 0 = 1 ∧
    (getBettiCurve [(i, j, w)] other).1.getD 9999 0 = 2 := by
  have hpoint : ∀ k : ℕ, k < 10000 →
      (getBettiCurve [(i, j, w)] other).1.getD k 0
        = if ((k : ℚ) + 1) / 10000 < w then 1 else 2 := by
    intro k hk
    rw [getBettiCurve_fst_getD _ _ k hk]
    simp only [List.map_cons, List.map_nil, bettiAt_singleton]
    rcases lt_or_le (((k : ℚ) + 1) / 10000) w with h | h
    · rw [if_neg (not_le.2 h), if_pos h]
    · rw [if_pos h, if_neg (not_lt.2 h)]
  refine ⟨hpoint, ?_, ?_⟩
  · rw [hpoint 0 (by norm_num), if_pos]
    push_cast
    linarith
  · rw [hpoint 9999 (by norm_num), if_neg]
    push_cast
    norm_num
    linarith

/-- C6 witness: the amended theorem applied at a concrete edge of weight
`1/2`. -/
theorem betti_step_shape_witness :
    ((1 : ℚ)/10000 < 1/2 ∧ (1 : ℚ)/2 ≤ 1) ∧
    ((∀ k : ℕ, k < 10000 →
        (getBettiCurve [(0, 1, 1/2)] []).1.getD k 0
          = if ((k : ℚ) + 1) / 10000 < 1/2 then 1 else 2) ∧
     (getBettiCurve [(0, 1, 1/2)] []).1.getD 0 0 = 1 ∧
     (getBettiCurve [(0, 1, 1/2)] []).1.getD 9999 0 = 2) :=
  ⟨⟨by norm_num, by norm_num⟩,
   betti_step_shape 0 1 (1/2) [] (by norm_num) (by norm_num)⟩

/-! ## Claim C8 -/

/-- C8: the threshold grid returned by `getBettiCurve` is exactly the 10000
evenly spaced values `(k+1)/10000` for `k = 0, …, 9999` (i.e. `k/10000` for
`k = 1, …, 10000`), and the identical grid is the one sampled for both
cohorts' curves. -/
theorem betti_threshold_grid (a b : List Edge) :
    (getBettiCurve a b).2.2
        = (List.range 10000).map (fun k : ℕ => ((k : ℚ) + 1) / 10000) ∧
    (getBettiCurve a b).1
        = ((getBettiCurve a b).2.2).map (bettiAt (a.map (fun e => e.2.2))) ∧
    (getBettiCurve a b).2.1
        = ((getBettiCurve a b).2.2).map (bettiAt (b.map (fun e => e.2.2))) := by
  rw [getBettiCurve_def]
  dsimp only
  exact ⟨thresholds_eq, rfl, rfl⟩

/-! ## Claim C10 -/

/-- C10: the output of `getBettiCurve` depends only on the multiset of edge
weights (third components) of each input list: permuting edges or changing
source/target indices while preserving the weight multiset leaves the
returned curves and grid unchanged. -/
theorem betti_depends_only_on_weights (a1 a2 b1 b2 : List Edge)
    (ha : (a1.map (fun e => e.2.2)).Perm (a2.map (fun e => e.2.2)))
    (hb : (b1.map (fun e => e.2.2)).Perm (b2.map (fun e => e.2.2))) :
    getBettiCurve a1 b1 = getBettiCurve a2 b2 := by
  rw [getBettiCurve_def, getBettiCurve_def]
  have hmap : ∀ (x y : List Edge),
      (x.map (fun e => e.2.2)).Perm (y.map (fun e => e.2.2)) →
      thresholds.map (bettiAt (x.map (fun e => e.2.2)))
        = thresholds.map (bettiAt (y.map (fun e => e.2.2))) := by
    intro x y hxy
    refine List.map_congr_left (fun t _ => ?_)
    unfold bettiAt
    rw [hxy.countP_eq]
  rw [hmap a1 a2 ha, hmap b1 b2 hb]

/-- C10 witness: two pairs of lists with equal weight multisets but different
indices and edge order yield identical outputs. -/
theorem betti_depends_only_on_weights_witness :
    (([(0, 1, 1/3), (1, 2, 2/3)] : List Edge).map (fun e => e.2.2)).Perm
        (([(9, 4, 2/3), (5, 7, 1/3)] : List Edge).map (fun e => e.2.2)) ∧
    (([(0, 2, 1/5)] : List Edge).map (fun e => e.2.2)).Perm
        (([(3, 3, 1/5)] : List Edge).map (fun e => e.2.2)) ∧
    getBettiCurve [(0, 1, 1/3), (1, 2, 2/3)] [(0, 2, 1/5)]
      = getBettiCurve [(9, 4, 2/3), (5, 7, 1/3)] [(3, 3, 1/5)] :=
  ⟨List.Perm.swap _ _ _, List.Perm.refl _,
   betti_depends_only_on_weights _ _ _ _ (List.Perm.swap _ _ _) (List.Perm.refl _)⟩

/-! ## Data loader (`loadSCGData`, lines 8-63) -/

/-- Matrices are lists of rows of rationals. -/
abbrev Mat := List (List ℚ)

/-- Python failure mode of reading a local variable that was never assigned
on the taken control path (`UnboundLocalError`, a subclass of `NameError`).
Carries the names of the unassigned locals read at the failing statement. -/
inductive PyError where
  | unboundLocal (vars : List String)
deriving DecidableEq

def matRow (data : Mat) (i : ℕ) : List ℚ := data.getD i []

/-- `data[np.ix_(rows, cols)]`: the submatrix with the given row and column
index lists. -/
def submatrix (data : Mat) (rows cols : List ℕ) : Mat :=
  rows.map (fun i => cols.map (fun j => (matRow data i).getD j 0))

/-- `loadSCGData(ICN)` (lines 37-63).  The two CSV files are external
collaborators, modelled as a `provider` map from file name to parsed matrix
(`np.loadtxt`'s `skiprows` is part of the provider).  The printed error
messages of the `else` branch are side effects and not modelled.  Python's
locals `icn_asd` and `icn_tdc` are modelled as `Option`-valued slots that
each branch may assign; the final `return (icn_asd, icn_tdc)` raises
`UnboundLocalError` when the taken branch assigned neither. -/
def loadSCGData (provider : String → Mat) (ICN : String) :
    Except PyError (Mat × Mat) :=
  let locals : Option Mat × Option Mat :=
    if ICN = "Global" then
      let data := provider "./data/7266_Raw_Densities.csv"
      (some (data.take 49), some (data.drop 49))
    else if ICN = "DMN" ∨ ICN = "SN" ∨ ICN = "ECN" then
      let data := provider "./data/ICN_SUB_Densities.csv"
      let colrange : List ℕ :=
        if ICN = "DMN" then List.range' 2 39
        else if ICN = "SN" then List.range' 41 32
        else List.range' 73 39
      (some (submatrix data (List.range' 0 49) colrange),
       some (submatrix data (List.range' 49 49) colrange))
    else
      (none, none)
  match locals with
  | (some icn_asd, some icn_tdc) => .ok (icn_asd, icn_tdc)
  | _ => .error (PyError.unboundLocal ["icn_asd", "icn_tdc"])

/-! ## Claim C9 -/

/-- C9: for every selector string not among `Global`, `DMN`, `SN`, `ECN`,
`loadSCGData` returns no value and raises no error from the design's
taxonomy: its `else` branch only prints, so the function reaches the final
`return` with `icn_asd` and `icn_tdc` never assigned and fails with
Python's unbound-local `NameError` (`UnboundLocalError`). -/
theorem loadSCGData_invalid_icn (provider : String → Mat) (ICN : String)
    (h1 : ICN ≠ "Global") (h2 : ICN ≠ "DMN") (h3 : ICN ≠ "SN")
    (h4 : ICN ≠ "ECN") :
    loadSCGData provider ICN
      = .error (PyError.unboundLocal ["icn_asd", "icn_tdc"]) := by
  unfold loadSCGData
  rw [if_neg h1, if_neg (by simp [h2, h3, h4])]

/-- C9 witness: the theorem applied at the concrete selector `XYZ`. -/
theorem loadSCGData_invalid_icn_witness :
    loadSCGData (fun _ => []) "XYZ"
      = .error (PyError.unboundLocal ["icn_asd", "icn_tdc"]) :=
  loadSCGData_invalid_icn (fun _ => []) "XYZ" (by decide) (by decide)
    (by decide) (by decide)

/-! ## Union-find over component labels

Kruskal's algorithm (the algorithm of
`scipy.sparse.csgraph.minimum_spanning_tree`) is modelled with a
label-array union-find: `L.getD i i` is the component label of node `i`,
and a union relabels every occurrence of one root to the other.  This also
provides the "union-find reconstruction" the spec uses to define treeness. -/

def ufFind (L : List ℕ) (i : ℕ) : ℕ := L.getD i i

def ufRelabel (L : List ℕ) (a b : ℕ) : List ℕ :=
  L.map (fun l => if l = b then a else l)

def ufStep (L : List ℕ) (e : Edge) : List ℕ :=
  if ufFind L e.1 = ufFind L e.2.1 then L
  else ufRelabel L (ufFind L e.1) (ufFind L e.2.1)

def ufProcess (L : List ℕ) (es : List Edge) : List ℕ := es.foldl ufStep L

def ufInit (R : ℕ) : List ℕ := List.range R

/-- Number of distinct component labels. -/
def compCount (L : List ℕ) : ℕ := L.toFinset.card

/-- Replaying a list of edges through the union-find, every edge merges two
distinct components (no edge closes a cycle). -/
def validJoins : List ℕ → List Edge → Prop
  | _, [] => True
  | L, e :: es => ufFind L e.1 ≠ ufFind L e.2.1 ∧ validJoins (ufStep L e) es

instance instDecidableValidJoins :
    ∀ (L : List ℕ) (es : List Edge), Decidable (validJoins L es)
  | _, [] => .isTrue trivial
  | L, e :: es =>
      have : Decidable (validJoins (ufStep L e) es) :=
        instDecidableValidJoins (ufStep L e) es
      by unfold validJoins; exact inferInstance

/-- Spanning-tree check by union-find reconstruction over `R` nodes:
every edge joins two distinct components (acyclicity) and afterwards all
`R` nodes carry one label (connectivity). -/
def isSpanningTree (R : ℕ) (es : List Edge) : Prop :=
  validJoins (ufInit R) es ∧
  ∀ i < R, ∀ j < R,
    ufFind (ufProcess (ufInit R) es) i = ufFind (ufProcess (ufInit R) es) j

instance (R : ℕ) (es : List Edge) : Decidable (isSpanningTree R es) := by
  unfold isSpanningTree
  exact inferInstance

/-- Kruskal's algorithm: scan the edges in order, keep an edge exactly when
its endpoints lie in distinct components, merging them.  Returns the kept
edges in scan order. -/
def kruskalAcc (L : List ℕ) : List Edge → List Edge
  | [] => []
  | e :: es =>
      if ufFind L e.1 = ufFind L e.2.1 then kruskalAcc L es
      else e :: kruskalAcc (ufStep L e) es

/-! ## MST extractor (`getMST`, lines 66-110) -/

def matGet (D : Mat) (i j : ℕ) : ℚ := (D.getD i []).getD j 0

/-- The candidate edges of the dense graph built by
`csg.csgraph_from_dense(mat, null_value=np.inf)`: all off-diagonal entries
(the diagonal was overwritten with the `inf` sentinel by `np.fill_diagonal`;
the matrix is symmetric, so the undirected edge set is the pairs `i < j`). -/
def allPairs (R : ℕ) : List (ℕ × ℕ) :=
  (List.range R).flatMap
    (fun i => ((List.range R).filter (fun j => i < j)).map (fun j => (i, j)))

def candidateEdges (D : Mat) (R : ℕ) : List Edge :=
  (allPairs R).map (fun p => (p.1, p.2, matGet D p.1 p.2))

/-- Scan order of Kruskal inside `scipy`: ascending dissimilarity (the
`argsort` of the edge data), with a concrete deterministic tie-break by
endpoint indices (`scipy` leaves the order of equal-weight edges
unspecified; every property proved below is tie-break independent). -/
def edgeKey (e : Edge) : ℚ ×ₗ (ℕ ×ₗ ℕ) := toLex (e.2.2, toLex (e.1, e.2.1))

def dissimOrder (e f : Edge) : Prop := edgeKey e ≤ edgeKey f

instance : DecidableRel dissimOrder := fun e f =>
  inferInstanceAs (Decidable (edgeKey e ≤ edgeKey f))

instance : IsTotal Edge dissimOrder := ⟨fun e f => le_total (edgeKey e) (edgeKey f)⟩

instance : IsTrans Edge dissimOrder := ⟨fun _ _ _ => le_trans⟩

/-- The MST edge set, in acceptance (ascending-dissimilarity) order;
each edge carries its dissimilarity. -/
def mstTree (D : Mat) (R : ℕ) : List Edge :=
  kruskalAcc (ufInit R) (List.insertionSort dissimOrder (candidateEdges D R))

/-- Zero-dissimilarity tree edges are absent from the returned triples: the
sparse result drops explicit zeros (`sp_tree.eliminate_zeros()` inside
`scipy`'s `minimum_spanning_tree`, and equally the `T.nonzero()` mask used
at lines 99 and 106). -/
def eliminateZeros (es : List Edge) : List Edge :=
  es.filter (fun e => decide (e.2.2 ≠ 0))

/-- Python's final `sorted(..., key=itemgetter(2))`. -/
def weightOrder (e f : Edge) : Prop := e.2.2 ≤ f.2.2

instance : DecidableRel weightOrder := fun e f =>
  inferInstanceAs (Decidable (e.2.2 ≤ f.2.2))

instance : IsTotal Edge weightOrder := ⟨fun e f => le_total e.2.2 f.2.2⟩

instance : IsTrans Edge weightOrder := ⟨fun _ _ _ => le_trans⟩

/-- One cohort's MST edge list as returned by `getMST` (lines 95-100):
MST of the dissimilarity matrix, zero-dissimilarity edges dropped by the
sparse representation, each surviving edge mapped to
`(source, target, 1 - dissimilarity)` and the list sorted ascending by the
third component. -/
def mstOutput (D : Mat) (R : ℕ) : List Edge :=
  List.insertionSort weightOrder
    ((eliminateZeros (mstTree D R)).map (fun e => (e.1, e.2.1, 1 - e.2.2)))

def ncols (X : Mat) : ℕ := (X.headD []).length

def nrows (X : Mat) : ℕ := X.length

def colMean (X : Mat) (j : ℕ) : ℚ :=
  ((List.range (nrows X)).map (fun s => matGet X s j)).sum / (nrows X : ℚ)

/-- Sample covariance of columns `j`, `k` (denominator `S - 1`, numpy's
default `ddof=1`; the denominators cancel in the correlation). -/
def covc (X : Mat) (j k : ℕ) : ℚ :=
  ((List.range (nrows X)).map
    (fun s => (matGet X s j - colMean X j) * (matGet X s k - colMean X k))).sum
    / ((nrows X : ℚ) - 1)

/-- numpy clips correlation values into `[-1, 1]`. -/
def clip1 (x : ℚ) : ℚ := max (-1) (min 1 x)

/-- `abs(np.corrcoef(X, rowvar=False))` (lines 89-90): variables are the
columns, observations the rows.  The floating-point square root of the
variances is modelled by `Rat.sqrt` (exact on perfect squares); no theorem
below depends on its value at a non-perfect square.

Degenerate-input caveat: numpy collapses single-variable inputs.  On a
single-row input `np.cov` skips its transpose (`rowvar` quirk), so the one
row is the only variable; a single-column input likewise leaves one
variable.  In both cases the real `corrcoef` returns a 0-d scalar (via its
scalar-covariance fallback `c / c`), after which `getMST` dies in
`np.fill_diagonal` with an untyped `ValueError` — it never returns
normally.  This embedding always returns the generic `ncols × ncols`
array, so it is faithful on inputs with `nrows ≠ 1` and `ncols ≠ 1`;
every theorem below that asserts a normal `getMST` return at small inputs
carries hypotheses (at least two rows, zero columns) keeping it inside
this faithful domain. -/
def corrAbs (X : Mat) : Mat :=
  (List.range (ncols X)).map (fun j : ℕ =>
    (List.range (ncols X)).map (fun k : ℕ =>
      |clip1 (covc X j k / (Rat.sqrt (covc X j j) * Rat.sqrt (covc X k k)))|))

def npShape (M : Mat) : ℕ × ℕ := (M.length, (M.headD []).length)

/-- `mat = 1.0 - cor` (lines 95, 102). -/
def dissimOf (C : Mat) : Mat := C.map (fun row => row.map (fun x => 1 - x))

/-- Process termination (`exit(1)`, line 93): not a typed error value, the
whole process stops. -/
inductive ProcExit where
  | exit (code : ℕ)
deriving DecidableEq

/-- `getMST(icn_asd, icn_tdc)` (lines 89-110): absolute correlation
matrices, shape check (mismatch prints and terminates the process),
then per cohort the dissimilarity matrix, its MST and the sorted
`(source, target, 1 - dissimilarity)` triples. -/
def getMST (icn_asd icn_tdc : Mat) :
    Except ProcExit (List Edge × List Edge) :=
  let cor_asd := corrAbs icn_asd
  let cor_tdc := corrAbs icn_tdc
  if npShape cor_tdc = npShape cor_asd then
    .ok (mstOutput (dissimOf cor_asd) cor_asd.length,
         mstOutput (dissimOf cor_tdc) cor_tdc.length)
  else
    .error (ProcExit.exit 1)

/-- Unfolding equation for `getMST`. -/
theorem getMST_def (A B : Mat) :
    getMST A B
      = if npShape (corrAbs B) = npShape (corrAbs A) then
          Except.ok (mstOutput (dissimOf (corrAbs A)) (corrAbs A).length,
                     mstOutput (dissimOf (corrAbs B)) (corrAbs B).length)
        else Except.error (ProcExit.exit 1) := rfl

theorem headD_length (l : List (List ℚ)) (n : ℕ)
    (h : ∀ r ∈ l, r.length = n) (h0 : l = [] → n = 0) :
    (l.headD []).length = n := by
  cases l with
  | nil => simpa using (h0 rfl).symm
  | cons a t => exact h a (List.mem_cons_self a t)

theorem npShape_corrAbs (X : Mat) :
    npShape (corrAbs X) = (ncols X, ncols X) := by
  unfold npShape
  have h1 : (corrAbs X).length = ncols X := by
    unfold corrAbs
    rw [List.length_map, List.length_range]
  have h2 : ((corrAbs X).headD []).length = ncols X := by
    refine headD_length _ _ (fun r hr => ?_) (fun he => ?_)
    · unfold corrAbs at hr
      rcases List.mem_map.1 hr with ⟨j, _, rfl⟩
      rw [List.length_map, List.length_range]
    · unfold corrAbs at he
      rcases List.map_eq_nil_iff.1 he with h
      simpa using congrArg List.length h
  rw [h1, h2]

theorem corrAbs_length (X : Mat) : (corrAbs X).length = ncols X := by
  unfold corrAbs
  rw [List.length_map, List.length_range]

theorem getMST_shape_mismatch (A B : Mat) (h : ncols A ≠ ncols B) :
    getMST A B = Except.error (ProcExit.exit 1) := by
  rw [getMST_def, if_neg]
  intro hc
  rw [npShape_corrAbs, npShape_corrAbs] at hc
  exact h (congrArg Prod.fst hc).symm

theorem mstOutput_zero (D : Mat) : mstOutput D 0 = [] := rfl

theorem getMST_zero_regions (A B : Mat) (hA : ncols A = 0) (hB : ncols B = 0) :
    getMST A B = Except.ok ([], []) := by
  rw [getMST_def, if_pos]
  · rw [corrAbs_length, corrAbs_length, hA, hB, mstOutput_zero, mstOutput_zero]
  · rw [npShape_corrAbs, npShape_corrAbs, hA, hB]

/-! ## Claim C4 -/

/-- C4 counterexample: for cohort matrices of 2 and 3 regions, the core does
not return a typed `ShapeMismatchError` value: it terminates the whole
process with `exit(1)` (lines 92-93), an outcome modelled as `ProcExit.exit
1`; no error type of the spec's taxonomy exists in the code. -/
theorem shape_mismatch_exit_concrete :
    getMST [[0, 0], [1, 1]] [[0, 0, 0], [1, 1, 1]]
      = Except.error (ProcExit.exit 1) :=
  getMST_shape_mismatch _ _ (by decide)

/-- C4 (amended): whenever the two cohorts' correlation matrices have
different region counts, `getMST` prints an error message and terminates
the process from within the core via `exit(1)` (returning no result and no
typed error value). -/
theorem shape_mismatch_terminates (A B : Mat) (h : ncols A ≠ ncols B) :
    getMST A B = Except.error (ProcExit.exit 1) :=
  getMST_shape_mismatch A B h

/-- C4 witness: the amended theorem applied to a 1-region / 2-region pair. -/
theorem shape_mismatch_terminates_witness :
    ncols [[(1 : ℚ)], [2]] ≠ ncols [[(1 : ℚ), 2], [3, 4]] ∧
    getMST [[1], [2]] [[1, 2], [3, 4]] = Except.error (ProcExit.exit 1) :=
  ⟨by decide, shape_mismatch_terminates [[1], [2]] [[1, 2], [3, 4]] (by decide)⟩

/-! ## Claim C5 -/

/-- C5 counterexample: a 2-subject cohort pair with zero regions (fewer
than 2) flows through the correlation/dissimilarity construction of
`getMST` without any `InvalidInputError` (no such error exists in the
code): the call returns normally with two empty edge lists.  (With two
rows numpy does transpose, so the real path is the generic 2-d one this
embedding models exactly.) -/
theorem no_invalid_input_error_concrete :
    getMST [[], []] [[], []] = Except.ok ([], []) := rfl

/-- C5 (amended): `getMST` performs no input-size validation and never
raises `InvalidInputError` (no such error exists in the code): a cohort
pair with at least two subjects (rows) and zero regions returns
successfully with two empty MST edge lists.  (One-region and one-subject
inputs also never yield `InvalidInputError`: numpy collapses them to a 0-d
scalar correlation and `np.fill_diagonal` then raises an untyped
`ValueError`; that error path lies outside this embedding's faithful
domain and is excluded by the row-count hypotheses.) -/
theorem getMST_accepts_small_input (A B : Mat)
    (hA : ncols A = 0) (hB : ncols B = 0)
    (hrA : 2 ≤ nrows A) (hrB : 2 ≤ nrows B) :
    getMST A B = Except.ok ([], []) :=
  getMST_zero_regions A B hA hB

/-- C5 witness: the amended theorem applied to concrete 3-subject,
0-region matrices. -/
theorem getMST_accepts_small_input_witness :
    (ncols [([] : List ℚ), [], []] = 0 ∧ 2 ≤ nrows [([] : List ℚ), [], []]) ∧
    getMST [[], [], []] [[], [], []] = Except.ok ([], []) :=
  ⟨⟨rfl, by decide⟩,
   getMST_accepts_small_input [[], [], []] [[], [], []] rfl rfl
     (by decide) (by decide)⟩

/-! ## Claim C7 -/

/-- C7: every edge list returned by `getMST` is sorted ascending by its
third component (the similarity weight `1 − dissimilarity`): consecutive
entries are in non-decreasing weight order. -/
theorem mst_output_sorted (A B : Mat) (out : List Edge × List Edge)
    (h : getMST A B = Except.ok out) :
    List.Chain' (fun e f : Edge => e.2.2 ≤ f.2.2) out.1 ∧
    List.Chain' (fun e f : Edge => e.2.2 ≤ f.2.2) out.2 := by
  rw [getMST_def] at h
  by_cases hc : npShape (corrAbs B) = npShape (corrAbs A)
  · rw [if_pos hc] at h
    cases h
    exact ⟨(List.sorted_insertionSort weightOrder _).chain',
           (List.sorted_insertionSort weightOrder _).chain'⟩
  · rw [if_neg hc] at h
    cases h

/-- C7 witness: the theorem applied at a concrete 4-subject, 0-region
input (inside the embedding's faithful domain, see `corrAbs`). -/
theorem mst_output_sorted_witness :
    getMST [[], [], [], []] [[], [], [], []]
      = Except.ok (([], []) : List Edge × List Edge) ∧
    (List.Chain' (fun e f : Edge => e.2.2 ≤ f.2.2) ([] : List Edge) ∧
     List.Chain' (fun e f : Edge => e.2.2 ≤ f.2.2) ([] : List Edge)) :=
  ⟨rfl, mst_output_sorted [[], [], [], []] [[], [], [], []] ([], []) rfl⟩

/-! ### Union-find lemmas -/

theorem ufRelabel_length (L : List ℕ) (a b : ℕ) :
    (ufRelabel L a b).length = L.length := by
  simp [ufRelabel]

theorem ufStep_length (L : List ℕ) (e : Edge) :
    (ufStep L e).length = L.length := by
  unfold ufStep
  split
  · rfl
  · simp [ufRelabel]

theorem ufProcess_length (es : List Edge) (L : List ℕ) :
    (ufProcess L es).length = L.length := by
  induction es generalizing L with
  | nil => rfl
  | cons e es ih =>
      show (ufProcess (ufStep L e) es).length = L.length
      rw [ih, ufStep_length]

theorem ufFind_relabel (L : List ℕ) (a b : ℕ) {i : ℕ} (h : i < L.length) :
    ufFind (ufRelabel L a b) i = if ufFind L i = b then a else ufFind L i := by
  have hm : i < (ufRelabel L a b).length := by rw [ufRelabel_length]; exact h
  unfold ufFind
  rw [List.getD_eq_getElem _ _ hm, List.getD_eq_getElem _ _ h]
  simp [ufRelabel]

theorem ufFind_mem (L : List ℕ) {i : ℕ} (h : i < L.length) : ufFind L i ∈ L := by
  unfold ufFind
  rw [List.getD_eq_getElem _ _ h]
  exact List.getElem_mem h

theorem ufFind_init {R i : ℕ} (h : i < R) : ufFind (ufInit R) i = i := by
  unfold ufFind ufInit
  rw [List.getD_eq_getElem _ _ (by simpa using h)]
  simp

theorem ufStep_pres_eq (L : List ℕ) (e : Edge) {i j : ℕ}
    (hi : i < L.length) (hj : j < L.length)
    (h : ufFind L i = ufFind L j) :
    ufFind (ufStep L e) i = ufFind (ufStep L e) j := by
  unfold ufStep
  split
  · exact h
  · rw [ufFind_relabel _ _ _ hi, ufFind_relabel _ _ _ hj, h]

theorem ufStep_merges (L : List ℕ) (e : Edge)
    (h1 : e.1 < L.length) (h2 : e.2.1 < L.length) :
    ufFind (ufStep L e) e.1 = ufFind (ufStep L e) e.2.1 := by
  unfold ufStep
  split
  · assumption
  · rename_i hne
    rw [ufFind_relabel _ _ _ h1, ufFind_relabel _ _ _ h2, if_neg hne, if_pos rfl]

theorem ufProcess_pres_eq (es : List Edge) (L : List ℕ) {i j : ℕ}
    (hi : i < L.length) (hj : j < L.length)
    (h : ufFind L i = ufFind L j) :
    ufFind (ufProcess L es) i = ufFind (ufProcess L es) j := by
  induction es generalizing L with
  | nil => exact h
  | cons e es ih =>
      show ufFind (ufProcess (ufStep L e) es) i = ufFind (ufProcess (ufStep L e) es) j
      exact ih (ufStep L e) (by rw [ufStep_length]; exact hi)
        (by rw [ufStep_length]; exact hj) (ufStep_pres_eq L e hi hj h)

theorem ufProcess_merges : ∀ (es : List Edge) (L : List ℕ) (e : Edge),
    e ∈ es → e.1 < L.length → e.2.1 < L.length →
    ufFind (ufProcess L es) e.1 = ufFind (ufProcess L es) e.2.1
  | [], _, e, he, _, _ => absurd he (List.not_mem_nil e)
  | f :: es, L, e, he, h1, h2 => by
      rcases List.mem_cons.1 he with rfl | hmem
      · exact ufProcess_pres_eq es (ufStep L e) (by rw [ufStep_length]; exact h1)
          (by rw [ufStep_length]; exact h2) (ufStep_merges L e h1 h2)
      · exact ufProcess_merges es (ufStep L f) e hmem
          (by rw [ufStep_length]; exact h1) (by rw [ufStep_length]; exact h2)

theorem toFinset_map_eq (L : List ℕ) (f : ℕ → ℕ) :
    (L.map f).toFinset = L.toFinset.image f := by
  induction L with
  | nil => simp
  | cons a t ih => simp [ih]

theorem compCount_relabel_le (L : List ℕ) (a b : ℕ) :
    compCount L ≤ 1 + compCount (ufRelabel L a b) := by
  unfold compCount ufRelabel
  rw [toFinset_map_eq]
  have hsub : L.toFinset
      ⊆ insert b (L.toFinset.image (fun l => if l = b then a else l)) := by
    intro x hx
    by_cases hxb : x = b
    · subst hxb; exact Finset.mem_insert_self _ _
    · refine Finset.mem_insert_of_mem (Finset.mem_image.2 ⟨x, hx, ?_⟩)
      rw [if_neg hxb]
  have h1 := Finset.card_le_card hsub
  have h2 := Finset.card_insert_le b
    (L.toFinset.image (fun l => if l = b then a else l))
  omega

theorem compCount_relabel_eq (L : List ℕ) (a b : ℕ)
    (ha : a ∈ L) (hb : b ∈ L) (hab : a ≠ b) :
    compCount L = 1 + compCount (ufRelabel L a b) := by
  unfold compCount ufRelabel
  rw [toFinset_map_eq]
  have himg : L.toFinset.image (fun l => if l = b then a else l)
      = L.toFinset.erase b := by
    ext x
    constructor
    · intro hx
      rcases Finset.mem_image.1 hx with ⟨y, hy, rfl⟩
      by_cases hyb : y = b
      · subst hyb
        rw [if_pos rfl]
        exact Finset.mem_erase.2 ⟨hab, List.mem_toFinset.2 ha⟩
      · rw [if_neg hyb]
        exact Finset.mem_erase.2 ⟨hyb, hy⟩
    · intro hx
      rcases Finset.mem_erase.1 hx with ⟨hxb, hxs⟩
      exact Finset.mem_image.2 ⟨x, hxs, by rw [if_neg hxb]⟩
  rw [himg]
  have := Finset.card_erase_add_one (List.mem_toFinset.2 hb)
  omega

theorem compCount_step_le (L : List ℕ) (e : Edge) :
    compCount L ≤ 1 + compCount (ufStep L e) := by
  unfold ufStep
  split
  · omega
  · exact compCount_relabel_le L _ _

theorem compCount_process_le : ∀ (es : List Edge) (L : List ℕ),
    compCount L ≤ es.length + compCount (ufProcess L es)
  | [], L => by simp [ufProcess]
  | e :: es, L => by
      have h1 := compCount_step_le L e
      have h2 := compCount_process_le es (ufStep L e)
      show compCount L ≤ (e :: es).length + compCount (ufProcess (ufStep L e) es)
      simp only [List.length_cons]
      omega

theorem validJoins_of_count : ∀ (es : List Edge) (L : List ℕ),
    compCount L = es.length + compCount (ufProcess L es) → validJoins L es
  | [], _, _ => trivial
  | e :: es, L, h => by
      have hle := compCount_process_le es (ufStep L e)
      rw [show ufProcess L (e :: es) = ufProcess (ufStep L e) es from rfl] at h
      simp only [List.length_cons] at h
      by_cases hc : ufFind L e.1 = ufFind L e.2.1
      · exfalso
        have hstep : ufStep L e = L := by unfold ufStep; rw [if_pos hc]
        rw [hstep] at h hle
        omega
      · refine ⟨hc, validJoins_of_count es (ufStep L e) ?_⟩
        have hstep_le := compCount_step_le L e
        omega

theorem compCount_eq_one (L : List ℕ) (h0 : 0 < L.length)
    (h : ∀ i j, i < L.length → j < L.length → ufFind L i = ufFind L j) :
    compCount L = 1 := by
  unfold compCount
  rw [Finset.card_eq_one]
  refine ⟨ufFind L 0, ?_⟩
  ext x
  simp only [List.mem_toFinset, Finset.mem_singleton]
  constructor
  · intro hx
    rcases List.mem_iff_getElem.1 hx with ⟨k, hk, rfl⟩
    have hk0 : ufFind L k = ufFind L 0 := h k 0 hk h0
    rw [← hk0]
    unfold ufFind
    rw [List.getD_eq_getElem _ _ hk]
  · intro hx
    subst hx
    exact ufFind_mem L h0

theorem compCount_init (R : ℕ) : compCount (ufInit R) = R := by
  unfold compCount ufInit
  rw [List.toFinset_card_of_nodup (List.nodup_range R), List.length_range]

/-! ### Kruskal lemmas -/

theorem kruskalAcc_cons (L : List ℕ) (e : Edge) (es : List Edge) :
    kruskalAcc L (e :: es)
      = if ufFind L e.1 = ufFind L e.2.1 then kruskalAcc L es
        else e :: kruskalAcc (ufStep L e) es := rfl

theorem kruskalAcc_subset : ∀ (L : List ℕ) (es : List Edge),
    ∀ e ∈ kruskalAcc L es, e ∈ es
  | _, [], e, he => absurd he (List.not_mem_nil e)
  | L, f :: es, e, he => by
      unfold kruskalAcc at he
      split at he
      · exact List.mem_cons_of_mem f (kruskalAcc_subset L es e he)
      · rcases List.mem_cons.1 he with rfl | hmem
        · exact List.mem_cons_self e es
        · exact List.mem_cons_of_mem f (kruskalAcc_subset (ufStep L f) es e hmem)

theorem ufProcess_kruskalAcc : ∀ (L : List ℕ) (es : List Edge),
    ufProcess L (kruskalAcc L es) = ufProcess L es
  | _, [] => rfl
  | L, e :: es => by
      by_cases hc : ufFind L e.1 = ufFind L e.2.1
      · have hstep : ufStep L e = L := by unfold ufStep; rw [if_pos hc]
        have h1 : kruskalAcc L (e :: es) = kruskalAcc L es := by
          rw [kruskalAcc_cons, if_pos hc]
        rw [h1, ufProcess_kruskalAcc L es]
        show ufProcess L es = ufProcess (ufStep L e) es
        rw [hstep]
      · have h1 : kruskalAcc L (e :: es) = e :: kruskalAcc (ufStep L e) es := by
          rw [kruskalAcc_cons, if_neg hc]
        rw [h1]
        show ufProcess (ufStep L e) (kruskalAcc (ufStep L e) es)
          = ufProcess (ufStep L e) es
        rw [ufProcess_kruskalAcc (ufStep L e) es]

theorem kruskalAcc_count : ∀ (es : List Edge) (L : List ℕ),
    (∀ e ∈ es, e.1 < L.length ∧ e.2.1 < L.length) →
    compCount L = (kruskalAcc L es).length + compCount (ufProcess L es)
  | [], L, _ => by simp [kruskalAcc, ufProcess]
  | e :: es, L, hb => by
      by_cases hc : ufFind L e.1 = ufFind L e.2.1
      · have hstep : ufStep L e = L := by unfold ufStep; rw [if_pos hc]
        have h1 : kruskalAcc L (e :: es) = kruskalAcc L es := by
          rw [kruskalAcc_cons, if_pos hc]
        have ih := kruskalAcc_count es L
          (fun f hf => hb f (List.mem_cons_of_mem e hf))
        rw [h1]
        show compCount L
          = (kruskalAcc L es).length + compCount (ufProcess (ufStep L e) es)
        rw [hstep]
        exact ih
      · have h1 : kruskalAcc L (e :: es) = e :: kruskalAcc (ufStep L e) es := by
          rw [kruskalAcc_cons, if_neg hc]
        have hbnd := hb e (List.mem_cons_self e es)
        have hdrop : compCount L = 1 + compCount (ufStep L e) := by
          have hstep : ufStep L e
              = ufRelabel L (ufFind L e.1) (ufFind L e.2.1) := by
            unfold ufStep; rw [if_neg hc]
          rw [hstep]
          exact compCount_relabel_eq L _ _ (ufFind_mem L hbnd.1)
            (ufFind_mem L hbnd.2) hc
        have ih := kruskalAcc_count es (ufStep L e)
          (fun f hf => by
            rw [ufStep_length]
            exact hb f (List.mem_cons_of_mem e hf))
        rw [h1]
        show compCount L = (e :: kruskalAcc (ufStep L e) es).length
          + compCount (ufProcess (ufStep L e) es)
        simp only [List.length_cons]
        omega

/-- Transfer of final union-find equalities into any symmetric-transitive
relation that holds along the processed edges and the initial state. -/
theorem ufProcess_eq_implies (C : ℕ → ℕ → Prop)
    (hsymm : ∀ {i j}, C i j → C j i)
    (htrans : ∀ {i j k}, C i j → C j k → C i k) :
    ∀ (es : List Edge) (L : List ℕ),
      (∀ e ∈ es, C e.1 e.2.1) →
      (∀ e ∈ es, e.1 < L.length ∧ e.2.1 < L.length) →
      (∀ i j, i < L.length → j < L.length → ufFind L i = ufFind L j → C i j) →
      ∀ i j, i < L.length → j < L.length →
        ufFind (ufProcess L es) i = ufFind (ufProcess L es) j → C i j
  | [], _, _, _, hstate, i, j, hi, hj, h => hstate i j hi hj h
  | e :: es, L, hedge, hbnd, hstate, i, j, hi, hj, h => by
      have hb := hbnd e (List.mem_cons_self e es)
      have hstate' : ∀ x y, x < (ufStep L e).length → y < (ufStep L e).length →
          ufFind (ufStep L e) x = ufFind (ufStep L e) y → C x y := by
        intro x y hx hy hxy
        rw [ufStep_length] at hx hy
        unfold ufStep at hxy
        split at hxy
        · exact hstate x y hx hy hxy
        · rename_i hne
          rw [ufFind_relabel _ _ _ hx, ufFind_relabel _ _ _ hy] at hxy
          by_cases hxb : ufFind L x = ufFind L e.2.1
          · rw [if_pos hxb] at hxy
            by_cases hyb : ufFind L y = ufFind L e.2.1
            · exact hstate x y hx hy (hxb.trans hyb.symm)
            · rw [if_neg hyb] at hxy
              have c1 : C x e.2.1 := hstate x e.2.1 hx hb.2 hxb
              have c2 : C e.1 y := hstate e.1 y hb.1 hy hxy
              exact htrans c1
                (htrans (hsymm (hedge e (List.mem_cons_self e es))) c2)
          · rw [if_neg hxb] at hxy
            by_cases hyb : ufFind L y = ufFind L e.2.1
            · rw [if_pos hyb] at hxy
              have c1 : C x e.1 := hstate x e.1 hx hb.1 hxy
              have c2 : C y e.2.1 := hstate y e.2.1 hy hb.2 hyb
              exact htrans c1
                (htrans (hedge e (List.mem_cons_self e es)) (hsymm c2))
            · rw [if_neg hyb] at hxy
              exact hstate x y hx hy hxy
      exact ufProcess_eq_implies C hsymm htrans es (ufStep L e)
        (fun f hf => hedge f (List.mem_cons_of_mem e hf))
        (fun f hf => by
          rw [ufStep_length]
          exact hbnd f (List.mem_cons_of_mem e hf))
        hstate' i j (by rw [ufStep_length]; exact hi)
        (by rw [ufStep_length]; exact hj) h

/-! ### Graph construction lemmas -/

theorem mem_allPairs {R i j : ℕ} : (i, j) ∈ allPairs R ↔ i < j ∧ j < R := by
  unfold allPairs
  rw [List.mem_flatMap]
  constructor
  · rintro ⟨a, _, hmem⟩
    rcases List.mem_map.1 hmem with ⟨b, hb, heq⟩
    rcases List.mem_filter.1 hb with ⟨hbr, hab⟩
    cases heq
    exact ⟨by simpa using hab, List.mem_range.1 hbr⟩
  · rintro ⟨hij, hjR⟩
    exact ⟨i, List.mem_range.2 (lt_trans hij hjR),
      List.mem_map.2 ⟨j, List.mem_filter.2 ⟨List.mem_range.2 hjR, by simpa using hij⟩, rfl⟩⟩

theorem mem_candidateEdges {D : Mat} {R : ℕ} {e : Edge} :
    e ∈ candidateEdges D R ↔ ∃ i j, i < j ∧ j < R ∧ e = (i, j, matGet D i j) := by
  unfold candidateEdges
  rw [List.mem_map]
  constructor
  · rintro ⟨⟨i, j⟩, hp, rfl⟩
    rcases mem_allPairs.1 hp with ⟨h1, h2⟩
    exact ⟨i, j, h1, h2, rfl⟩
  · rintro ⟨i, j, h1, h2, rfl⟩
    exact ⟨(i, j), mem_allPairs.2 ⟨h1, h2⟩, rfl⟩

theorem candidate_bounds {D : Mat} {R : ℕ} :
    ∀ e ∈ candidateEdges D R, e.1 < R ∧ e.2.1 < R := by
  intro e he
  rcases mem_candidateEdges.1 he with ⟨i, j, h1, h2, rfl⟩
  exact ⟨lt_trans h1 h2, h2⟩

theorem sortedCandidates_perm (D : Mat) (R : ℕ) :
    (List.insertionSort dissimOrder (candidateEdges D R)).Perm
      (candidateEdges D R) :=
  List.perm_insertionSort dissimOrder (candidateEdges D R)

theorem mstTree_subset_candidates {D : Mat} {R : ℕ} :
    ∀ e ∈ mstTree D R, e ∈ candidateEdges D R := by
  intro e he
  exact ((sortedCandidates_perm D R).mem_iff).1
    (kruskalAcc_subset (ufInit R) _ e he)

theorem ufInit_length (R : ℕ) : (ufInit R).length = R := List.length_range R

theorem total_merge_sorted (D : Mat) (R : ℕ) :
    ∀ i j, i < R → j < R →
      ufFind (ufProcess (ufInit R)
          (List.insertionSort dissimOrder (candidateEdges D R))) i
        = ufFind (ufProcess (ufInit R)
            (List.insertionSort dissimOrder (candidateEdges D R))) j := by
  have key : ∀ i j, i < j → j < R →
      ufFind (ufProcess (ufInit R)
          (List.insertionSort dissimOrder (candidateEdges D R))) i
        = ufFind (ufProcess (ufInit R)
            (List.insertionSort dissimOrder (candidateEdges D R))) j := by
    intro i j hij hjR
    have hmem : ((i, j, matGet D i j) : Edge)
        ∈ List.insertionSort dissimOrder (candidateEdges D R) :=
      (sortedCandidates_perm D R).mem_iff.2
        (mem_candidateEdges.2 ⟨i, j, hij, hjR, rfl⟩)
    exact ufProcess_merges _ (ufInit R) _ hmem
      (by rw [ufInit_length]; exact lt_trans hij hjR)
      (by rw [ufInit_length]; exact hjR)
  intro i j hi hj
  rcases lt_trichotomy i j with h | rfl | h
  · exact key i j h hj
  · rfl
  · exact (key j i h hi).symm

theorem mstTree_length (D : Mat) (R : ℕ) (hR : 1 ≤ R) :
    (mstTree D R).length = R - 1 := by
  have hbnd : ∀ e ∈ List.insertionSort dissimOrder (candidateEdges D R),
      e.1 < (ufInit R).length ∧ e.2.1 < (ufInit R).length := by
    intro e he
    have hb := candidate_bounds e ((sortedCandidates_perm D R).mem_iff.1 he)
    rw [ufInit_length]
    exact hb
  have hcount := kruskalAcc_count _ (ufInit R) hbnd
  have hone : compCount (ufProcess (ufInit R)
      (List.insertionSort dissimOrder (candidateEdges D R))) = 1 := by
    apply compCount_eq_one
    · rw [ufProcess_length, ufInit_length]; omega
    · intro i j hi hj
      rw [ufProcess_length, ufInit_length] at hi hj
      exact total_merge_sorted D R i j hi hj
  rw [compCount_init, hone] at hcount
  unfold mstTree
  omega

theorem tree_merge (D : Mat) (R : ℕ) :
    ∀ i j, i < R → j < R →
      ufFind (ufProcess (ufInit R) (mstTree D R)) i
        = ufFind (ufProcess (ufInit R) (mstTree D R)) j := by
  intro i j hi hj
  unfold mstTree
  rw [ufProcess_kruskalAcc]
  exact total_merge_sorted D R i j hi hj

theorem eliminateZeros_tree (D : Mat) (R : ℕ)
    (hpos : ∀ i < R, ∀ j < R, i ≠ j → 0 < matGet D i j ∧ matGet D i j ≤ 1) :
    eliminateZeros (mstTree D R) = mstTree D R := by
  unfold eliminateZeros
  rw [List.filter_eq_self]
  intro e he
  rcases mem_candidateEdges.1 (mstTree_subset_candidates e he)
    with ⟨i, j, h1, h2, rfl⟩
  simp only [decide_eq_true_eq]
  exact ne_of_gt (hpos i (lt_trans h1 h2) j h2 (Nat.ne_of_lt h1)).1

theorem mem_mstOutput (D : Mat) (R : ℕ)
    (hpos : ∀ i < R, ∀ j < R, i ≠ j → 0 < matGet D i j ∧ matGet D i j ≤ 1)
    {x : Edge} :
    x ∈ mstOutput D R ↔ ∃ e ∈ mstTree D R, x = (e.1, e.2.1, 1 - e.2.2) := by
  unfold mstOutput
  rw [(List.perm_insertionSort weightOrder _).mem_iff,
    eliminateZeros_tree D R hpos, List.mem_map]
  constructor
  · rintro ⟨e, he, rfl⟩
    exact ⟨e, he, rfl⟩
  · rintro ⟨e, he, rfl⟩
    exact ⟨e, he, rfl⟩

theorem mstOutput_length (D : Mat) (R : ℕ) (hR : 1 ≤ R)
    (hpos : ∀ i < R, ∀ j < R, i ≠ j → 0 < matGet D i j ∧ matGet D i j ≤ 1) :
    (mstOutput D R).length = R - 1 := by
  unfold mstOutput
  rw [(List.perm_insertionSort weightOrder _).length_eq, List.length_map,
    eliminateZeros_tree D R hpos, mstTree_length D R hR]

/-! ## Claim C3 -/

/-- C3 counterexample: for the valid 2×2 dissimilarity matrix whose
off-diagonal entry is `0` (the claim allows weights in `[0,1]`), the single
MST edge has dissimilarity exactly `0` and is dropped by the sparse
representation (`eliminate_zeros` / `nonzero`), so the extraction returns
`0`, not `R − 1 = 1`, edges. -/
theorem mst_extraction_zero_edge_lost :
    (mstOutput [[0, 0], [0, 0]] 2).length ≠ 2 - 1 := by decide

/-- C3 (amended): for every `R ≥ 2` and every valid `R×R` dissimilarity
matrix whose off-diagonal entries are strictly positive (in `(0, 1]`;
zero-dissimilarity edges are dropped by the sparse representation, see the
counterexample), the MST extraction returns exactly `R−1` edges, each with
weight in `[0,1]`, and the edge set forms a spanning tree of the `R` nodes
(verified by union-find reconstruction: every edge joins two distinct
components, and all nodes end in one component). -/
theorem mst_extraction_spanning_tree (D : Mat) (R : ℕ) (hR : 2 ≤ R)
    (hsym : ∀ i < R, ∀ j < R, matGet D i j = matGet D j i)
    (hpos : ∀ i < R, ∀ j < R, i ≠ j → 0 < matGet D i j ∧ matGet D i j ≤ 1) :
    (mstOutput D R).length = R - 1 ∧
    (∀ x ∈ mstOutput D R, 0 ≤ x.2.2 ∧ x.2.2 ≤ 1) ∧
    isSpanningTree R (mstOutput D R) := by
  have hR1 : 1 ≤ R := by omega
  have hedges_merged : ∀ e ∈ mstTree D R,
      ufFind (ufProcess (ufInit R) (mstOutput D R)) e.1
        = ufFind (ufProcess (ufInit R) (mstOutput D R)) e.2.1 := by
    intro e he
    have hxout : ((e.1, e.2.1, 1 - e.2.2) : Edge) ∈ mstOutput D R :=
      (mem_mstOutput D R hpos).2 ⟨e, he, rfl⟩
    have hb := candidate_bounds _ (mstTree_subset_candidates e he)
    exact ufProcess_merges (mstOutput D R) (ufInit R) (e.1, e.2.1, 1 - e.2.2)
      hxout (by rw [ufInit_length]; exact hb.1)
      (by rw [ufInit_length]; exact hb.2)
  have hconn : ∀ i j, i < R → j < R →
      ufFind (ufProcess (ufInit R) (mstOutput D R)) i
        = ufFind (ufProcess (ufInit R) (mstOutput D R)) j := by
    have htransfer := ufProcess_eq_implies
      (fun i j => ufFind (ufProcess (ufInit R) (mstOutput D R)) i
        = ufFind (ufProcess (ufInit R) (mstOutput D R)) j)
      (fun h => h.symm) (fun h1 h2 => h1.trans h2)
      (mstTree D R) (ufInit R)
      hedges_merged
      (fun e he => by
        have hb := candidate_bounds _ (mstTree_subset_candidates e he)
        rw [ufInit_length]
        exact hb)
      (fun i j hi hj hinit => by
        rw [ufInit_length] at hi hj
        rw [ufFind_init hi, ufFind_init hj] at hinit
        rw [hinit])
    intro i j hi hj
    exact htransfer i j (by rw [ufInit_length]; exact hi)
      (by rw [ufInit_length]; exact hj) (tree_merge D R i j hi hj)
  have hvalid : validJoins (ufInit R) (mstOutput D R) := by
    apply validJoins_of_count
    have hone : compCount (ufProcess (ufInit R) (mstOutput D R)) = 1 := by
      apply compCount_eq_one
      · rw [ufProcess_length, ufInit_length]; omega
      · intro i j hi hj
        rw [ufProcess_length, ufInit_length] at hi hj
        exact hconn i j hi hj
    rw [compCount_init, hone, mstOutput_length D R hR1 hpos]
    omega
  refine ⟨mstOutput_length D R hR1 hpos, ?_, hvalid, fun i hi j hj => hconn i j hi hj⟩
  intro x hx
  rcases (mem_mstOutput D R hpos).1 hx with ⟨e, he, rfl⟩
  rcases mem_candidateEdges.1 (mstTree_subset_candidates e he)
    with ⟨i, j, h1, h2, rfl⟩
  have hp := hpos i (lt_trans h1 h2) j h2 (Nat.ne_of_lt h1)
  constructor
  · show (0 : ℚ) ≤ 1 - matGet D i j
    linarith [hp.2]
  · show (1 : ℚ) - matGet D i j ≤ 1
    linarith [hp.1]

/-- C3 witness: the amended theorem applied to the 2×2 matrix with
off-diagonal dissimilarity `1`. -/
theorem mst_extraction_spanning_tree_witness :
    (2 ≤ 2 ∧
     (∀ i < 2, ∀ j < 2, matGet [[0, 1], [1, 0]] i j = matGet [[0, 1], [1, 0]] j i) ∧
     (∀ i < 2, ∀ j < 2, i ≠ j →
        0 < matGet [[0, 1], [1, 0]] i j ∧ matGet [[0, 1], [1, 0]] i j ≤ 1)) ∧
    ((mstOutput [[0, 1], [1, 0]] 2).length = 2 - 1 ∧
     (∀ x ∈ mstOutput [[0, 1], [1, 0]] 2, 0 ≤ x.2.2 ∧ x.2.2 ≤ 1) ∧
     isSpanningTree 2 (mstOutput [[0, 1], [1, 0]] 2)) :=
  ⟨⟨by decide, by decide, by decide⟩,
   mst_extraction_spanning_tree [[0, 1], [1, 0]] 2 (by decide) (by decide)
     (by decide)⟩

end SCG
